import Mathlib

/-!
Verification of the MiniLedger documentation against the code embedded in it.

MiniLedger is a permissioned blockchain whose documented implementation
consists of TypeScript snippets in the architecture docs (consensus, storage,
networking, identity).  This file gives a shallow embedding of those snippets
in Lean 4 and proves the behavioural properties stated in the documentation.

Conventions of the embedding:
  - TypeScript numbers that are used as counters and indices are Nat;
  - Map objects become association lists, a missing entry reading as the
    TypeScript default applied at the use site;
  - the Raft log is a list of entries, entry at 1-based index n sitting at
    list position n - 1 (this is the invariant the append path maintains);
  - callbacks and RPC sends are recorded as explicit traces returned by the
    functions, so that the order and multiplicity of invocations is provable;
  - hashing (sha256Hex, sha256) is an abstract function parameter, since the
    properties at stake never depend on the hash's internals.
-/

/-! ## Core data model: transactions and blocks -/

/-- A MiniLedger transaction, as described in the storage schema:
hash, type, sender, nonce and a JSON-serialized payload. -/
structure Tx where
  hash : String
  type : String
  sender : String
  nonce : Nat
  payload : String
deriving DecidableEq, Repr

/-- A MiniLedger block: height, header hashes and the transaction list.
Only the fields the verified operations touch are carried. -/
structure Block where
  height : Nat
  hash : String
  prevHash : String
  stateRoot : String
  transactions : List Tx
deriving DecidableEq, Repr

/-! ## Raft consensus (docs/architecture/consensus, part_004) -/

/-- The RaftRole enum: Follower, Candidate, Leader. -/
inductive RaftRole where
  | Follower
  | Candidate
  | Leader
deriving DecidableEq, Repr

/-- A RaftLogEntry directly wraps a Block: term, index, block. -/
structure RaftLogEntry where
  term : Nat
  index : Nat
  block : Block
deriving DecidableEq, Repr

/-- RaftLog.getLastIndex: the index of the newest entry, 0 for an empty log.
Entries are stored 1-based, so the last index is the length. -/
def getLastIndex (log : List RaftLogEntry) : Nat :=
  log.length

/-- RaftLog.getLastTerm: the term of the newest entry, 0 for an empty log. -/
def getLastTerm (log : List RaftLogEntry) : Nat :=
  match log.getLast? with
  | some e => e.term
  | none => 0

/-- RaftLog.getEntry(n): the entry at 1-based index n, if present. -/
def getEntry (log : List RaftLogEntry) (n : Nat) : Option RaftLogEntry :=
  if n = 0 then none else log[n - 1]?

/-- Map.set on an association list: replace the binding for the key if
present, append it otherwise. -/
def mapSet : List (String × Nat) → String → Nat → List (String × Nat)
  | [], k, v => [(k, v)]
  | (k0, v0) :: rest, k, v =>
      if k0 = k then (k0, v) :: rest else (k0, v0) :: mapSet rest k v

/-- Map.get with the `?? 0` default used by advanceCommitIndex. -/
def mapGetD (m : List (String × Nat)) (k : String) : Nat :=
  match m.lookup k with
  | some v => v
  | none => 0

/-- The state of a RaftNode: persistent (currentTerm, votedFor, raftLog),
volatile (role, leaderId, commitIndex, lastApplied), leader-only
(nextIndex, matchIndex), plus the node's own id and the ids known to the
peer manager (peerManager.getKnownNodeIds()). -/
structure RaftState where
  nodeId : String
  currentTerm : Nat
  votedFor : Option String
  role : RaftRole
  leaderId : Option String
  commitIndex : Nat
  lastApplied : Nat
  raftLog : List RaftLogEntry
  nextIndex : List (String × Nat)
  matchIndex : List (String × Nat)
  knownNodeIds : List String
deriving Repr

/-- The voter list used by advanceCommitIndex:
allNodeIds = getKnownNodeIds() with the leader's own id appended. -/
def allNodeIds (st : RaftState) : List String :=
  st.knownNodeIds ++ [st.nodeId]

/-- majority = Math.floor(allNodeIds.length / 2) + 1. -/
def majorityOf (st : RaftState) : Nat :=
  (allNodeIds st).length / 2 + 1

/-- The replicated count for candidate index n: each node contributes when
its match value is at least n, the leader itself counting with its last log
index and every other node with matchIndex.get(nodeId) defaulting to 0. -/
def replicatedCount (st : RaftState) (n : Nat) : Nat :=
  (allNodeIds st).countP fun id =>
    decide (n ≤ (if id = st.nodeId then getLastIndex st.raftLog
                 else mapGetD st.matchIndex id))

/-- The while loop of applyCommitted: while lastApplied < commitIndex,
increment lastApplied, look the entry up, and hand the embedded block to
onBlockCommitted when the entry exists.  The returned trace lists the
(index, block) pairs passed to the callback, in call order. -/
def applyCommittedLoop (log : List RaftLogEntry) (commitIndex lastApplied : Nat) :
    Nat × List (Nat × Block) :=
  if lastApplied < commitIndex then
    match getEntry log (lastApplied + 1) with
    | some e =>
        ((applyCommittedLoop log commitIndex (lastApplied + 1)).1,
         (lastApplied + 1, e.block) :: (applyCommittedLoop log commitIndex (lastApplied + 1)).2)
    | none => applyCommittedLoop log commitIndex (lastApplied + 1)
  else (lastApplied, [])
termination_by commitIndex - lastApplied

/-- applyCommitted on the whole node state: runs the loop and stores the
final lastApplied, returning the callback trace alongside. -/
def applyCommittedState (st : RaftState) : RaftState × List (Nat × Block) :=
  let r := applyCommittedLoop st.raftLog st.commitIndex st.lastApplied
  ({ st with lastApplied := r.1 }, r.2)

/-- The descending scan of advanceCommitIndex, as a recursion on the
candidate index: at n the loop exits when n ≤ commitIndex, skips entries
that are absent or not of the current term, commits at the first n whose
replicated count reaches the majority, and otherwise moves to n - 1. -/
def scanCommit (st : RaftState) : Nat → Option Nat
  | 0 => none
  | m + 1 =>
    if m + 1 ≤ st.commitIndex then none
    else
      match getEntry st.raftLog (m + 1) with
      | some e =>
          if e.term = st.currentTerm ∧ majorityOf st ≤ replicatedCount st (m + 1) then
            some (m + 1)
          else scanCommit st m
      | none => scanCommit st m

/-- advanceCommitIndex: leaders only; scan from the last log index down,
set commitIndex to the first qualifying index, apply the newly committed
entries and stop.  The callback trace of applyCommitted is returned. -/
def advanceCommitIndex (st : RaftState) : RaftState × List (Nat × Block) :=
  if st.role = RaftRole.Leader then
    match scanCommit st (getLastIndex st.raftLog) with
    | some n => applyCommittedState { st with commitIndex := n }
    | none => (st, [])
  else (st, [])

/-- isLogUpToDate: compare last log terms first (higher wins), and on a tie
the candidate wins when its last log index is at least the voter's. -/
def isLogUpToDate (log : List RaftLogEntry) (lastLogIndex lastLogTerm : Nat) : Bool :=
  let myLastTerm := getLastTerm log
  let myLastIndex := getLastIndex log
  if lastLogTerm ≠ myLastTerm then decide (myLastTerm < lastLogTerm)
  else decide (myLastIndex ≤ lastLogIndex)

/-- A RequestVote RPC payload: term, candidateId, lastLogIndex, lastLogTerm. -/
structure VoteRequest where
  term : Nat
  candidateId : String
  lastLogIndex : Nat
  lastLogTerm : Nat
deriving DecidableEq, Repr

/-- stepDown(newTerm): adopt the term, become Follower, clear votedFor. -/
def stepDown (st : RaftState) (newTerm : Nat) : RaftState :=
  { st with currentTerm := newTerm, role := RaftRole.Follower, votedFor := none }

/-- The vote-granting logic: if the candidate's term is strictly higher the
voter first steps down; the vote is granted when the candidate's term equals
the (possibly updated) current term, the voter has not voted this term for a
different candidate, and the candidate's log is at least as up to date. -/
def handleRequestVote (st : RaftState) (req : VoteRequest) : RaftState × Bool :=
  let st1 := if st.currentTerm < req.term then stepDown st req.term else st
  let grant := (req.term == st1.currentTerm)
      && (st1.votedFor == none || st1.votedFor == some req.candidateId)
      && isLogUpToDate st1.raftLog req.lastLogIndex req.lastLogTerm
  (if grant then { st1 with votedFor := some req.candidateId } else st1, grant)

/-- becomeLeader: set role and leaderId, nextIndex of every peer to
lastLogIndex + 1 and matchIndex of every peer to 0. -/
def becomeLeader (st : RaftState) : RaftState :=
  { st with
    role := RaftRole.Leader
    leaderId := some st.nodeId
    nextIndex := st.knownNodeIds.map fun id => (id, getLastIndex st.raftLog + 1)
    matchIndex := st.knownNodeIds.map fun id => (id, 0) }

/-- startElection: increment the term, become Candidate, vote for self;
with totalVoters = 1 become Leader at once and send no RPC, otherwise
broadcast a RequestVote to every known peer.  The sent RPCs are returned
as a trace. -/
def startElection (st : RaftState) : RaftState × List VoteRequest :=
  let st1 := { st with
    currentTerm := st.currentTerm + 1
    role := RaftRole.Candidate
    votedFor := some st.nodeId }
  let totalVoters := st.knownNodeIds.length + 1
  if totalVoters = 1 then (becomeLeader st1, [])
  else
    (st1, st.knownNodeIds.map fun _ =>
      { term := st1.currentTerm
        candidateId := st.nodeId
        lastLogIndex := getLastIndex st.raftLog
        lastLogTerm := getLastTerm st.raftLog })

/-- proposeBlock (leader only): append an entry carrying the block at
index lastLogIndex + 1 with the current term, record the leader's own
matchIndex at that index, and attempt to advance the commit index (the
heartbeat send is a network effect outside this model). -/
def proposeBlock (st : RaftState) (b : Block) : RaftState × List (Nat × Block) :=
  if st.role = RaftRole.Leader then
    advanceCommitIndex
      { st with
        raftLog := st.raftLog ++
          [{ term := st.currentTerm, index := getLastIndex st.raftLog + 1, block := b }]
        matchIndex := mapSet st.matchIndex st.nodeId (getLastIndex st.raftLog + 1) }
  else (st, [])

/-- The property advanceCommitIndex selects for: the entry at n exists, was
proposed in the leader's current term, and its replicated count reaches the
majority. -/
def commitQualified (st : RaftState) (n : Nat) : Prop :=
  (∃ e, getEntry st.raftLog n = some e ∧ e.term = st.currentTerm) ∧
  majorityOf st ≤ replicatedCount st n

/-! ## Storage layer (docs/architecture/storage.md) -/

/-- A row of the world_state table: key, value, version (the other columns
do not enter the state root computation). -/
structure StateRow where
  key : String
  value : String
  version : Nat
deriving DecidableEq, Repr

/-- Row serialization for the state root: key, value and version joined
with colons. -/
def serializeRow (r : StateRow) : String :=
  r.key ++ ":" ++ r.value ++ ":" ++ toString r.version

/-- Key order on rows, the ORDER BY key ASC of the state root query. -/
def keyLe (a b : StateRow) : Prop :=
  a.key ≤ b.key

/-- Strict key order, used to exploit the primary-key uniqueness of keys. -/
def keyLt (a b : StateRow) : Prop :=
  a.key < b.key

instance : DecidableRel keyLe :=
  fun a b => inferInstanceAs (Decidable (a.key ≤ b.key))

instance : IsTotal StateRow keyLe :=
  ⟨fun a b => le_total a.key b.key⟩

instance : IsTrans StateRow keyLe :=
  ⟨fun _ _ _ h1 h2 => le_trans h1 h2⟩

instance : IsAntisymm StateRow keyLt :=
  ⟨fun _ _ h1 h2 => absurd (lt_trans h1 h2) (lt_irrefl _)⟩

/-- The SELECT ... ORDER BY key ASC of computeStateRoot: the world-state
rows sorted by key ascending. -/
def sortRows (ws : List StateRow) : List StateRow :=
  List.insertionSort keyLe ws

/-- computeStateRoot: read the rows ordered by key ascending, return the
64-zero sentinel when the table is empty, and otherwise hash the rows each
serialized as key:value:version and joined by the pipe separator.  The hash
function (sha256Hex) is an abstract parameter. -/
def computeStateRoot (hash : String → String) (ws : List StateRow) : String :=
  let rows := sortRows ws
  if rows.length = 0 then String.mk (List.replicate 64 '0')
  else hash (String.intercalate "|" (rows.map serializeRow))

/-- txStore.removePending(hashes): delete the pool entries whose hash is in
the list. -/
def removePending (pool : List Tx) (hashes : List String) : List Tx :=
  pool.filter fun t => ¬ hashes.contains t.hash

/-- txStore.updateNonce(sender, nonce) on the nonces table: set or insert
the sender's row. -/
def setNonce : List (String × Nat) → String → Nat → List (String × Nat)
  | [], s, n => [(s, n)]
  | (k, v) :: rest, s, n =>
      if k = s then (k, n) :: rest else (k, v) :: setNonce rest s n

/-- The storage touched by atomic block application: world state, the
in-memory chain, the blocks table, the pending pool and the nonces table. -/
structure StorageState where
  worldState : List StateRow
  chain : List Block
  blocks : List Block
  txPool : List Tx
  nonces : List (String × Nat)
deriving DecidableEq, Repr

/-- db.raw().transaction(() => ...)(): apply every transaction's payload to
the world state, append the block to the chain and the blocks table, remove
the block's transactions from the pending pool and update sender nonces; a
thrown error anywhere rolls the whole unit back (the original state is
returned with applied = false).  applyTransaction is an abstract parameter
since only its success or failure matters for atomicity. -/
def applyBlockAtomically
    (applyTx : Tx → Nat → List StateRow → Except String (List StateRow))
    (st : StorageState) (b : Block) : StorageState × Bool :=
  match b.transactions.foldlM (fun w t => applyTx t b.height w) st.worldState with
  | Except.error _ => (st, false)
  | Except.ok w =>
      ({ worldState := w
         chain := st.chain ++ [b]
         blocks := st.blocks ++ [b]
         txPool := removePending st.txPool (b.transactions.map Tx.hash)
         nonces := b.transactions.foldl
           (fun ns t => setNonce ns t.sender t.nonce) st.nonces }, true)

/-- The whitespace characters stripped by trim. -/
def isSpaceChar (c : Char) : Bool :=
  c == ' ' || c == '\t' || c == '\n' || c == '\r'

/-- sql.trim(): strip leading and trailing whitespace, at the character
level. -/
def trimChars (cs : List Char) : List Char :=
  ((cs.dropWhile isSpaceChar).reverse.dropWhile isSpaceChar).reverse

/-- startsWith at the character level. -/
def listStartsWith (cs p : List Char) : Bool :=
  cs.take p.length == p

/-- The guard of StateStore.query:
sql.trim().toUpperCase().startsWith("SELECT"), modeled over the character
list of the statement. -/
def sqlIsSelect (sql : String) : Bool :=
  listStartsWith ((trimChars sql.data).map Char.toUpper) "SELECT".data

/-- StateStore.query(sql, params): reject anything whose trimmed upper-cased
text does not start with SELECT, never touching the database; otherwise run
the statement and return its rows.  The database engine (prepare/all) is an
abstract parameter exec, invoked only in the accepted branch. -/
def query {Db Row Param : Type}
    (exec : String → List Param → Db → Db × List Row)
    (db : Db) (sql : String) (params : List Param) :
    Db × Except String (List Row) :=
  if sqlIsSelect sql then
    ((exec sql params db).1, Except.ok (exec sql params db).2)
  else (db, Except.error "Only SELECT queries are allowed")

/-! ## Leader election theorems (claims C6 and C7) -/

/-- Claim C6: the candidate's log is judged at least as up to date exactly
when its last-log-term is strictly higher than the voter's, or the terms tie
and its last-log-index is at least the voter's; and a vote is granted only if
in addition the candidate's term is at least the voter's currentTerm and the
voter has not already voted this term for a different candidate. -/
theorem claim_C6_vote_granting (st : RaftState) (req : VoteRequest) :
    (isLogUpToDate st.raftLog req.lastLogIndex req.lastLogTerm = true ↔
      (getLastTerm st.raftLog < req.lastLogTerm ∨
       (req.lastLogTerm = getLastTerm st.raftLog ∧
        getLastIndex st.raftLog ≤ req.lastLogIndex))) ∧
    ((handleRequestVote st req).2 = true →
      st.currentTerm ≤ req.term ∧
      isLogUpToDate st.raftLog req.lastLogIndex req.lastLogTerm = true ∧
      (req.term = st.currentTerm →
        st.votedFor = none ∨ st.votedFor = some req.candidateId)) := by
  constructor
  · unfold isLogUpToDate
    by_cases h : req.lastLogTerm = getLastTerm st.raftLog
    · simp [h]
    · simp [h]
  · intro hg
    by_cases hterm : st.currentTerm < req.term
    · simp only [handleRequestVote, if_pos hterm, stepDown] at hg
      simp at hg
      exact ⟨Nat.le_of_lt hterm, hg, fun he => absurd he (by omega)⟩
    · simp only [handleRequestVote, if_neg hterm] at hg
      simp at hg
      obtain ⟨⟨h1, h2⟩, h3⟩ := hg
      exact ⟨Nat.le_of_eq h1.symm, h3, fun _ => h2⟩

/-- Claim C6 witness: a concrete voter and candidate for which the vote is
granted, instantiating the characterization. -/
theorem claim_C6_vote_granting_witness :
    (let st : RaftState :=
      { nodeId := "a", currentTerm := 1, votedFor := none,
        role := RaftRole.Follower, leaderId := none, commitIndex := 0,
        lastApplied := 0, raftLog := [], nextIndex := [], matchIndex := [],
        knownNodeIds := ["b"] }
     let req : VoteRequest :=
      { term := 2, candidateId := "b", lastLogIndex := 0, lastLogTerm := 0 }
     (isLogUpToDate st.raftLog req.lastLogIndex req.lastLogTerm = true ↔
       (getLastTerm st.raftLog < req.lastLogTerm ∨
        (req.lastLogTerm = getLastTerm st.raftLog ∧
         getLastIndex st.raftLog ≤ req.lastLogIndex))) ∧
     ((handleRequestVote st req).2 = true →
       st.currentTerm ≤ req.term ∧
       isLogUpToDate st.raftLog req.lastLogIndex req.lastLogTerm = true ∧
       (req.term = st.currentTerm →
         st.votedFor = none ∨ st.votedFor = some req.candidateId))) :=
  claim_C6_vote_granting _ _

/-- Helper: one scan step of advanceCommitIndex succeeds at the top index
when the guard passes, the entry is present with the current term, and the
replicated count reaches the majority. -/
theorem scanCommit_succ_hit (st : RaftState) (k : Nat) (e : RaftLogEntry)
    (hguard : ¬ (k + 1 ≤ st.commitIndex))
    (hent : getEntry st.raftLog (k + 1) = some e)
    (hterm : e.term = st.currentTerm)
    (hmaj : majorityOf st ≤ replicatedCount st (k + 1)) :
    scanCommit st (k + 1) = some (k + 1) := by
  rw [scanCommit, if_neg hguard, hent]
  exact if_pos ⟨hterm, hmaj⟩

/-- Helper: on a leader, advanceCommitIndex with a successful scan sets the
commit index to the scanned index and applies the committed entries. -/
theorem advanceCommitIndex_scan_some (st : RaftState) (n : Nat)
    (hrole : st.role = RaftRole.Leader)
    (hscan : scanCommit st (getLastIndex st.raftLog) = some n) :
    advanceCommitIndex st = applyCommittedState { st with commitIndex := n } := by
  unfold advanceCommitIndex
  rw [if_pos hrole, hscan]

/-- Helper: on a leader, advanceCommitIndex with a failed scan changes
nothing and fires no callback. -/
theorem advanceCommitIndex_scan_none (st : RaftState)
    (hrole : st.role = RaftRole.Leader)
    (hscan : scanCommit st (getLastIndex st.raftLog) = none) :
    advanceCommitIndex st = (st, []) := by
  unfold advanceCommitIndex
  rw [if_pos hrole, hscan]

/-- Helper: the commit index after a successful scan is the scanned index. -/
theorem advanceCommitIndex_commitIndex (st : RaftState) (n : Nat)
    (hrole : st.role = RaftRole.Leader)
    (hscan : scanCommit st (getLastIndex st.raftLog) = some n) :
    ((advanceCommitIndex st).1).commitIndex = n := by
  rw [advanceCommitIndex_scan_some st n hrole hscan]
  simp [applyCommittedState]

/-- Helper for claim C7: a leader of a one-node cluster commits a proposed
block at once: after proposeBlock the commit index equals the new entry's
index, the last index of the extended log. -/
theorem proposeBlock_single_node_commits (st : RaftState) (b : Block)
    (hrole : st.role = RaftRole.Leader)
    (hpeers : st.knownNodeIds = [])
    (hci : st.commitIndex ≤ getLastIndex st.raftLog) :
    ((proposeBlock st b).1).commitIndex = getLastIndex st.raftLog + 1 := by
  have hlen : getLastIndex ({ st with
      raftLog := st.raftLog ++
        [{ term := st.currentTerm, index := getLastIndex st.raftLog + 1, block := b }],
      matchIndex := mapSet st.matchIndex st.nodeId (getLastIndex st.raftLog + 1) }
        : RaftState).raftLog = st.raftLog.length + 1 := by
    simp [getLastIndex]
  have hscan : scanCommit
      { st with
        raftLog := st.raftLog ++
          [{ term := st.currentTerm, index := getLastIndex st.raftLog + 1, block := b }],
        matchIndex := mapSet st.matchIndex st.nodeId (getLastIndex st.raftLog + 1) }
      (getLastIndex ({ st with
        raftLog := st.raftLog ++
          [{ term := st.currentTerm, index := getLastIndex st.raftLog + 1, block := b }],
        matchIndex := mapSet st.matchIndex st.nodeId (getLastIndex st.raftLog + 1) }
          : RaftState).raftLog) = some (st.raftLog.length + 1) := by
    rw [hlen]
    refine scanCommit_succ_hit _ _
      { term := st.currentTerm, index := getLastIndex st.raftLog + 1, block := b }
      ?_ ?_ rfl ?_
    · simp only [getLastIndex] at hci
      show ¬ (st.raftLog.length + 1 ≤ st.commitIndex)
      omega
    · show getEntry (st.raftLog ++
        [{ term := st.currentTerm, index := getLastIndex st.raftLog + 1, block := b }])
        (st.raftLog.length + 1) = _
      simp [getEntry, List.getElem?_concat_length]
    · simp [majorityOf, allNodeIds, replicatedCount, hpeers, getLastIndex]
  unfold proposeBlock
  rw [if_pos hrole]
  exact advanceCommitIndex_commitIndex _ _ hrole hscan

/-- Claim C7: in a one-node cluster (no known peers), starting an election
makes the node Leader immediately with no RequestVote RPC sent, and the new
leader commits a proposed entry immediately. -/
theorem claim_C7_single_node_election (st : RaftState)
    (hpeers : st.knownNodeIds = [])
    (hci : st.commitIndex ≤ getLastIndex st.raftLog) :
    (startElection st).1.role = RaftRole.Leader ∧
    (startElection st).2 = [] ∧
    (startElection st).1.leaderId = some st.nodeId ∧
    ∀ b, ((proposeBlock (startElection st).1 b).1).commitIndex
        = getLastIndex st.raftLog + 1 := by
  have hse : startElection st =
      (becomeLeader
        { st with
          currentTerm := st.currentTerm + 1
          role := RaftRole.Candidate
          votedFor := some st.nodeId }, []) := by
    unfold startElection
    simp [hpeers]
  rw [hse]
  refine ⟨by simp [becomeLeader], rfl, by simp [becomeLeader], fun b => ?_⟩
  exact proposeBlock_single_node_commits _ b (by simp [becomeLeader])
    (by exact hpeers) (by exact hci)

/-! ## Commit index advancement theorems (claims C1 and C5) -/

/-- Helper: extending the scan range by one non-qualifying index leaves the
characterization of the scan result unchanged. -/
theorem commitQualified_extend (st : RaftState) (k n : Nat)
    (hnq : ¬ commitQualified st (k + 1)) :
    (st.commitIndex < n ∧ n ≤ k ∧ commitQualified st n ∧
      ∀ m, n < m → m ≤ k → ¬ commitQualified st m) ↔
    (st.commitIndex < n ∧ n ≤ k + 1 ∧ commitQualified st n ∧
      ∀ m, n < m → m ≤ k + 1 → ¬ commitQualified st m) := by
  constructor
  · rintro ⟨h1, h2, h3, h4⟩
    refine ⟨h1, by omega, h3, fun m hm1 hm2 => ?_⟩
    rcases Nat.lt_or_ge m (k + 1) with h | h
    · exact h4 m hm1 (by omega)
    · have hm : m = k + 1 := by omega
      exact hm ▸ hnq
  · rintro ⟨h1, h2, h3, h4⟩
    have hne : n ≠ k + 1 := fun h => hnq (h ▸ h3)
    exact ⟨h1, by omega, h3, fun m hm1 hm2 => h4 m hm1 (by omega)⟩

/-- Helper: the descending scan returns exactly the highest index in range
(commitIndex, k] whose entry is of the current term and whose replicated
count reaches the majority. -/
theorem scanCommit_eq_some_iff (st : RaftState) (k n : Nat) :
    scanCommit st k = some n ↔
      (st.commitIndex < n ∧ n ≤ k ∧ commitQualified st n ∧
       ∀ m, n < m → m ≤ k → ¬ commitQualified st m) := by
  induction k with
  | zero =>
    constructor
    · intro h
      rw [scanCommit] at h
      exact Option.noConfusion h
    · rintro ⟨h1, h2, -, -⟩
      exact absurd h1 (by omega)
  | succ k ih =>
    rw [scanCommit]
    by_cases hguard : k + 1 ≤ st.commitIndex
    · rw [if_pos hguard]
      constructor
      · intro h
        exact Option.noConfusion h
      · rintro ⟨h1, h2, -, -⟩
        exact absurd hguard (by omega)
    · rw [if_neg hguard]
      cases hent : getEntry st.raftLog (k + 1) with
      | some e =>
        by_cases hq : e.term = st.currentTerm ∧
            majorityOf st ≤ replicatedCount st (k + 1)
        · show (if e.term = st.currentTerm ∧
              majorityOf st ≤ replicatedCount st (k + 1) then some (k + 1)
              else scanCommit st k) = some n ↔ _
          rw [if_pos hq]
          constructor
          · intro h
            injection h with h
            subst h
            refine ⟨by omega, Nat.le_refl _, ⟨⟨e, hent, hq.1⟩, hq.2⟩,
              fun m hm1 hm2 => absurd hm1 (by omega)⟩
          · rintro ⟨h1, h2, h3, h4⟩
            have hn : n = k + 1 := by
              by_contra hne
              exact h4 (k + 1) (by omega) (Nat.le_refl _) ⟨⟨e, hent, hq.1⟩, hq.2⟩
            rw [hn]
        · show (if e.term = st.currentTerm ∧
              majorityOf st ≤ replicatedCount st (k + 1) then some (k + 1)
              else scanCommit st k) = some n ↔ _
          rw [if_neg hq, ih]
          refine commitQualified_extend st k n ?_
          rintro ⟨⟨e', he', ht'⟩, hc⟩
          rw [hent] at he'
          injection he' with he'
          exact hq ⟨he' ▸ ht', hc⟩
      | none =>
        show scanCommit st k = some n ↔ _
        rw [ih]
        refine commitQualified_extend st k n ?_
        rintro ⟨⟨e', he', -⟩, -⟩
        rw [hent] at he'
        exact Option.noConfusion he'

/-- Claim C1: a leader's advanceCommitIndex scans from the last log index
down to commitIndex + 1 and commits exactly the highest index n whose entry
is of the leader's current term and whose replicated count (leader included)
reaches the strict majority of all known voters, applying the newly committed
entries and stopping there; an entry of an earlier term is never chosen, and
a failed scan changes nothing. -/
theorem claim_C1_advance_commit_index (st : RaftState)
    (hrole : st.role = RaftRole.Leader) :
    (∀ n, scanCommit st (getLastIndex st.raftLog) = some n ↔
       (st.commitIndex < n ∧ n ≤ getLastIndex st.raftLog ∧ commitQualified st n ∧
        ∀ m, n < m → m ≤ getLastIndex st.raftLog → ¬ commitQualified st m)) ∧
    (∀ n e, scanCommit st (getLastIndex st.raftLog) = some n →
       getEntry st.raftLog n = some e → e.term = st.currentTerm) ∧
    (∀ n, scanCommit st (getLastIndex st.raftLog) = some n →
       advanceCommitIndex st = applyCommittedState { st with commitIndex := n }) ∧
    (scanCommit st (getLastIndex st.raftLog) = none →
       advanceCommitIndex st = (st, [])) := by
  refine ⟨fun n => scanCommit_eq_some_iff st _ n, ?_,
    fun n => advanceCommitIndex_scan_some st n hrole,
    advanceCommitIndex_scan_none st hrole⟩
  intro n e hs he
  obtain ⟨-, -, ⟨⟨e', he', ht'⟩, -⟩, -⟩ := (scanCommit_eq_some_iff st _ n).1 hs
  rw [he] at he'
  injection he' with he'
  exact he' ▸ ht'

/-- Claim C1 witness: a concrete three-node leader that commits index 1,
replicated on itself and one follower, instantiating the characterization. -/
theorem claim_C1_advance_commit_index_witness :
    (let st : RaftState :=
      { nodeId := "a", currentTerm := 2, votedFor := some "a",
        role := RaftRole.Leader, leaderId := some "a", commitIndex := 0,
        lastApplied := 0,
        raftLog := [{ term := 2, index := 1, block := { height := 1, hash := "h1", prevHash := "h0", stateRoot := "s1", transactions := [] } }],
        nextIndex := [("b", 2), ("c", 2)], matchIndex := [("b", 1), ("c", 0)],
        knownNodeIds := ["b", "c"] }
     (∀ n, scanCommit st (getLastIndex st.raftLog) = some n ↔
       (st.commitIndex < n ∧ n ≤ getLastIndex st.raftLog ∧ commitQualified st n ∧
        ∀ m, n < m → m ≤ getLastIndex st.raftLog → ¬ commitQualified st m)) ∧
     (∀ n e, scanCommit st (getLastIndex st.raftLog) = some n →
       getEntry st.raftLog n = some e → e.term = st.currentTerm) ∧
     (∀ n, scanCommit st (getLastIndex st.raftLog) = some n →
       advanceCommitIndex st = applyCommittedState { st with commitIndex := n }) ∧
     (scanCommit st (getLastIndex st.raftLog) = none →
       advanceCommitIndex st = (st, []))) :=
  claim_C1_advance_commit_index _ rfl

/-- Helper: the applyCommitted loop run from lastApplied, with every entry
present up to commitIndex, ends at commitIndex and fires the callback once
per index, in increasing order, with the block stored at that index. -/
theorem applyCommittedLoop_spec (log : List RaftLogEntry) (ci : Nat) :
    ∀ d la, ci = la + d →
    (∀ i, la < i → i ≤ ci → ∃ e, getEntry log i = some e) →
    (applyCommittedLoop log ci la).1 = ci ∧
    ((applyCommittedLoop log ci la).2).map Prod.fst = List.range' (la + 1) d ∧
    ∀ p ∈ (applyCommittedLoop log ci la).2,
      ∃ e, getEntry log p.1 = some e ∧ e.block = p.2 := by
  intro d
  induction d with
  | zero =>
    intro la hla _
    rw [applyCommittedLoop, if_neg (by omega)]
    exact ⟨by omega, by simp, by simp⟩
  | succ d ih =>
    intro la hla hent
    obtain ⟨e, he⟩ := hent (la + 1) (by omega) (by omega)
    have hrec := ih (la + 1) (by omega) (fun i h1 h2 => hent i (by omega) h2)
    rw [applyCommittedLoop, if_pos (by omega), he]
    refine ⟨hrec.1, ?_, ?_⟩
    · show ((la + 1, e.block) ::
          (applyCommittedLoop log ci (la + 1)).2).map Prod.fst =
          List.range' (la + 1) (d + 1)
      rw [List.map_cons, hrec.2.1, List.range'_succ]
    · intro p hp
      rcases List.mem_cons.1 hp with hp | hp
      · subst hp
        exact ⟨e, he, rfl⟩
      · exact hrec.2.2 p hp

/-- Claim C5: with lastApplied at most commitIndex and every entry in range
present in the log, applyCommitted fires onBlockCommitted exactly once for
each index in lastApplied + 1 .. commitIndex, in strictly increasing order
with none skipped, advancing lastApplied by one per entry up to commitIndex;
indices at or below the old lastApplied are never re-applied. -/
theorem claim_C5_apply_committed (st : RaftState)
    (hle : st.lastApplied ≤ st.commitIndex)
    (hent : ∀ i, st.lastApplied < i → i ≤ st.commitIndex →
        ∃ e, getEntry st.raftLog i = some e) :
    ((applyCommittedState st).1).lastApplied = st.commitIndex ∧
    ((applyCommittedState st).1).commitIndex = st.commitIndex ∧
    ((applyCommittedState st).2).map Prod.fst
        = List.range' (st.lastApplied + 1) (st.commitIndex - st.lastApplied) ∧
    ((applyCommittedState st).2).length = st.commitIndex - st.lastApplied ∧
    (∀ p ∈ (applyCommittedState st).2,
        ∃ e, getEntry st.raftLog p.1 = some e ∧ e.block = p.2) := by
  have h := applyCommittedLoop_spec st.raftLog st.commitIndex
      (st.commitIndex - st.lastApplied) st.lastApplied (by omega) hent
  refine ⟨h.1, rfl, h.2.1, ?_, h.2.2⟩
  have hlen := congrArg List.length h.2.1
  simpa using hlen

/-- Claim C5 witness: a follower with two committed, unapplied entries fires
the callback for indices 1 and 2 in order and ends with lastApplied = 2. -/
theorem claim_C5_apply_committed_witness :
    (let b1 : Block := { height := 1, hash := "h1", prevHash := "h0", stateRoot := "s1", transactions := [] }
     let b2 : Block := { height := 2, hash := "h2", prevHash := "h1", stateRoot := "s2", transactions := [] }
     let st : RaftState :=
      { nodeId := "a", currentTerm := 1, votedFor := none,
        role := RaftRole.Follower, leaderId := some "b", commitIndex := 2,
        lastApplied := 0,
        raftLog := [{ term := 1, index := 1, block := b1 },
                    { term := 1, index := 2, block := b2 }],
        nextIndex := [], matchIndex := [], knownNodeIds := ["b"] }
     ((applyCommittedState st).1).lastApplied = st.commitIndex ∧
     ((applyCommittedState st).1).commitIndex = st.commitIndex ∧
     ((applyCommittedState st).2).map Prod.fst
        = List.range' (st.lastApplied + 1) (st.commitIndex - st.lastApplied) ∧
     ((applyCommittedState st).2).length = st.commitIndex - st.lastApplied ∧
     (∀ p ∈ (applyCommittedState st).2,
        ∃ e, getEntry st.raftLog p.1 = some e ∧ e.block = p.2)) :=
  claim_C5_apply_committed _ (by decide)
    (by
      intro i h1 h2
      interval_cases i
      · exact ⟨_, rfl⟩
      · exact ⟨_, rfl⟩)

/-- Claim C7 witness: a concrete fresh single node elects itself leader with
no RPCs and commits its first proposal. -/
theorem claim_C7_single_node_election_witness :
    (let st : RaftState :=
      { nodeId := "a", currentTerm := 0, votedFor := none,
        role := RaftRole.Follower, leaderId := none, commitIndex := 0,
        lastApplied := 0, raftLog := [], nextIndex := [], matchIndex := [],
        knownNodeIds := [] }
     (startElection st).1.role = RaftRole.Leader ∧
     (startElection st).2 = [] ∧
     (startElection st).1.leaderId = some st.nodeId ∧
     ∀ b, ((proposeBlock (startElection st).1 b).1).commitIndex
        = getLastIndex st.raftLog + 1) :=
  claim_C7_single_node_election _ rfl (Nat.le_refl 0)

/-! ## Storage theorems (claims C2, C3, C4) -/

/-- Helper: a sorted list with pairwise-distinct keys is strictly sorted
by key. -/
theorem pairwise_keyLt_of_sorted_nodup (l : List StateRow)
    (hs : l.Sorted keyLe) (hnd : (l.map StateRow.key).Nodup) :
    l.Pairwise keyLt := by
  have hne : l.Pairwise fun a b => a.key ≠ b.key := by
    have h2 : (l.map StateRow.key).Pairwise (fun a b => a ≠ b) := hnd
    exact List.pairwise_map.1 h2
  exact (hs.and hne).imp fun h => lt_of_le_of_ne h.1 h.2

/-- Helper: sorting is invariant under permutation when keys are unique,
so equal row sets produce the same ordered listing. -/
theorem sortRows_perm_eq (l1 l2 : List StateRow) (hp : l1.Perm l2)
    (hnd : (l1.map StateRow.key).Nodup) :
    sortRows l1 = sortRows l2 := by
  have hperm : (sortRows l1).Perm (sortRows l2) :=
    (List.perm_insertionSort keyLe l1).trans
      (hp.trans (List.perm_insertionSort keyLe l2).symm)
  have hnd1 : ((sortRows l1).map StateRow.key).Nodup :=
    (((List.perm_insertionSort keyLe l1).map StateRow.key).nodup_iff).2 hnd
  have hnd2 : ((sortRows l2).map StateRow.key).Nodup :=
    (hperm.map StateRow.key).nodup_iff.1 hnd1
  exact List.eq_of_perm_of_sorted hperm
    (pairwise_keyLt_of_sorted_nodup _ (List.sorted_insertionSort keyLe l1) hnd1)
    (pairwise_keyLt_of_sorted_nodup _ (List.sorted_insertionSort keyLe l2) hnd2)

/-- Claim C2: computeStateRoot returns the 64-zero sentinel on an empty
world state, otherwise hashes the rows sorted by key ascending, serialized
as key:value:version and pipe-joined; it is a pure function, and two states
with identical rows (same rows in any order, keys unique) give bit-identical
roots. -/
theorem claim_C2_compute_state_root (hash : String → String) :
    computeStateRoot hash [] = String.mk (List.replicate 64 '0') ∧
    (∀ ws : List StateRow, ws ≠ [] →
      computeStateRoot hash ws =
        hash (String.intercalate "|" ((sortRows ws).map serializeRow)) ∧
      (sortRows ws).Perm ws ∧ (sortRows ws).Sorted keyLe) ∧
    (∀ ws1 ws2 : List StateRow, ws1.Perm ws2 →
      (ws1.map StateRow.key).Nodup →
      computeStateRoot hash ws1 = computeStateRoot hash ws2) := by
  refine ⟨rfl, ?_, ?_⟩
  · intro ws hne
    have hlen : (sortRows ws).length = ws.length :=
      (List.perm_insertionSort keyLe ws).length_eq
    have hnz : ¬ ((sortRows ws).length = 0) := by
      rw [hlen]
      exact fun h => hne (List.eq_nil_of_length_eq_zero h)
    refine ⟨?_, List.perm_insertionSort keyLe ws, List.sorted_insertionSort keyLe ws⟩
    unfold computeStateRoot
    rw [if_neg hnz]
  · intro ws1 ws2 hp hnd
    unfold computeStateRoot
    rw [sortRows_perm_eq ws1 ws2 hp hnd]

/-- Claim C2 witness: the sentinel on the empty state, a concrete root for
one row, and order-independence for a concrete two-row state, with the
identity function standing in for the hash. -/
theorem claim_C2_compute_state_root_witness :
    computeStateRoot (fun s => s) [] = String.mk (List.replicate 64 '0') ∧
    computeStateRoot (fun s => s)
        [{ key := "k", value := "v", version := 1 }] = "k:v:1" ∧
    computeStateRoot (fun s => s)
        [{ key := "b", value := "2", version := 1 },
         { key := "a", value := "1", version := 3 }] =
      computeStateRoot (fun s => s)
        [{ key := "a", value := "1", version := 3 },
         { key := "b", value := "2", version := 1 }] :=
  ⟨(claim_C2_compute_state_root (fun s => s)).1,
   by
    have h := ((claim_C2_compute_state_root (fun s => s)).2.1
      [{ key := "k", value := "v", version := 1 }] (by simp)).1
    rw [h]
    rfl,
   (claim_C2_compute_state_root (fun s => s)).2.2 _ _
    (List.Perm.swap _ _ _) (by decide)⟩

/-- Claim C3: block application is atomic.  Whenever the result is not
applied the storage is returned untouched; if any transaction in the block
fails after a successful prefix, the whole unit rolls back to the starting
state; and when every transaction applies, the world state holds the folded
result while the block is appended to the chain and the blocks table, its
transactions leave the pending pool, and the sender nonces are updated, all
in one step. -/
theorem claim_C3_apply_block_atomically
    (applyTx : Tx → Nat → List StateRow → Except String (List StateRow))
    (st : StorageState) (b : Block) :
    (∀ st2, applyBlockAtomically applyTx st b = (st2, false) → st2 = st) ∧
    (∀ pre tx post w e, b.transactions = pre ++ tx :: post →
      pre.foldlM (fun w t => applyTx t b.height w) st.worldState = Except.ok w →
      applyTx tx b.height w = Except.error e →
      applyBlockAtomically applyTx st b = (st, false)) ∧
    (∀ w, b.transactions.foldlM (fun w t => applyTx t b.height w) st.worldState
        = Except.ok w →
      applyBlockAtomically applyTx st b =
        ({ worldState := w
           chain := st.chain ++ [b]
           blocks := st.blocks ++ [b]
           txPool := removePending st.txPool (b.transactions.map Tx.hash)
           nonces := b.transactions.foldl
             (fun ns t => setNonce ns t.sender t.nonce) st.nonces }, true)) := by
  refine ⟨?_, ?_, ?_⟩
  · intro st2 h
    unfold applyBlockAtomically at h
    cases hfold : b.transactions.foldlM (fun w t => applyTx t b.height w) st.worldState with
    | error er =>
      rw [hfold] at h
      exact (Prod.mk.injEq _ _ _ _ ▸ h).1.symm
    | ok w =>
      rw [hfold] at h
      exact absurd (Prod.mk.injEq _ _ _ _ ▸ h).2 (by simp)
  · intro pre tx post w e hsplit hpre htx
    have hfold : b.transactions.foldlM (fun w t => applyTx t b.height w) st.worldState
        = Except.error e := by
      rw [hsplit, List.foldlM_append, hpre]
      show (tx :: post).foldlM (fun w t => applyTx t b.height w) w = Except.error e
      rw [List.foldlM_cons, htx]
      rfl
    unfold applyBlockAtomically
    rw [hfold]
  · intro w hfold
    unfold applyBlockAtomically
    rw [hfold]

/-- A demonstration applyTransaction for the C3 witness: a transaction of
type fail throws, any other writes its payload key into the world state. -/
def demoApplyTx (t : Tx) (h : Nat) (w : List StateRow) :
    Except String (List StateRow) :=
  if t.type = "fail" then Except.error "tx failed"
  else Except.ok (w ++ [{ key := t.payload, value := t.payload, version := h }])

/-- A pending transaction that applies cleanly. -/
def txOk : Tx :=
  { hash := "t1", type := "state:set", sender := "s1", nonce := 1, payload := "k1" }

/-- A pending transaction that fails to apply. -/
def txBad : Tx :=
  { hash := "t2", type := "fail", sender := "s1", nonce := 2, payload := "k2" }

/-- A starting storage state holding both demo transactions in the pool. -/
def demoStorage : StorageState :=
  { worldState := [], chain := [], blocks := [],
    txPool := [txOk, txBad], nonces := [] }

/-- A block whose second transaction fails. -/
def blockFail : Block :=
  { height := 1, hash := "bf", prevHash := "g", stateRoot := "r",
    transactions := [txOk, txBad] }

/-- A block whose only transaction applies. -/
def blockOk : Block :=
  { height := 1, hash := "bo", prevHash := "g", stateRoot := "r",
    transactions := [txOk] }

/-- Claim C3 witness: applying a block with a failing second transaction
rolls everything back, and applying a clean block lands all four effects. -/
theorem claim_C3_apply_block_atomically_witness :
    applyBlockAtomically demoApplyTx demoStorage blockFail = (demoStorage, false) ∧
    applyBlockAtomically demoApplyTx demoStorage blockOk =
      ({ worldState := [{ key := "k1", value := "k1", version := 1 }]
         chain := [blockOk]
         blocks := [blockOk]
         txPool := [txBad]
         nonces := [("s1", 1)] }, true) :=
  ⟨(claim_C3_apply_block_atomically demoApplyTx demoStorage blockFail).2.1
      [txOk] txBad [] [{ key := "k1", value := "k1", version := 1 }] "tx failed"
      rfl rfl rfl,
   by
    have h := (claim_C3_apply_block_atomically demoApplyTx demoStorage blockOk).2.2
      [{ key := "k1", value := "k1", version := 1 }] rfl
    rw [h]
    rfl⟩

/-- Claim C4: query rejects any statement whose trimmed upper-cased text
does not start with SELECT, raising the descriptive error, leaving the
database unchanged and never invoking the engine (the result does not
depend on exec); a statement passing the SELECT check is executed and its
rows are returned. -/
theorem claim_C4_query_select_only {Db Row Param : Type}
    (exec : String → List Param → Db → Db × List Row)
    (db : Db) (sql : String) (params : List Param) :
    (¬ sqlIsSelect sql = true →
      query exec db sql params =
        (db, Except.error "Only SELECT queries are allowed")) ∧
    (sqlIsSelect sql = true →
      query exec db sql params =
        ((exec sql params db).1, Except.ok (exec sql params db).2)) := by
  constructor
  · intro h
    unfold query
    rw [if_neg h]
  · intro h
    unfold query
    rw [if_pos h]

/-- Claim C4 witness: a DROP statement is rejected with the engine left
untouched, while a lower-case select runs and returns its rows, against a
counter standing in for the database. -/
theorem claim_C4_query_select_only_witness :
    query (fun _ _ db => (db + 1, [42])) (0 : Nat)
        "DROP TABLE world_state" ([] : List Nat) =
      (0, Except.error "Only SELECT queries are allowed") ∧
    query (fun _ _ db => (db + 1, [42])) (0 : Nat)
        "select key FROM world_state" ([] : List Nat) =
      (1, Except.ok [42]) :=
  ⟨(claim_C4_query_select_only (fun _ _ db => (db + 1, [42])) 0
      "DROP TABLE world_state" []).1 (by decide),
   by
    have h := (claim_C4_query_select_only (fun _ _ db => (db + 1, [42])) 0
      "select key FROM world_state" ([] : List Nat)).2 (by decide)
    rw [h]⟩

/-! ## Networking (docs/architecture/networking.md) -/

/-- The handshake handler's identity checks: a claimed identity equal to the
local node's, or one already present in the peer map, closes the connection
and registers nothing; otherwise the peer is registered.  The peer map is
carried as the list of registered node ids. -/
def handleHandshake (selfId : String) (peers : List String) (remoteId : String) :
    List String × Bool :=
  if remoteId = selfId then (peers, false)
  else if remoteId ∈ peers then (peers, false)
  else (peers ++ [remoteId], true)

/-- A connected peer as BlockSync sees it: identity and last reported chain
height. -/
structure SyncPeer where
  nodeId : String
  chainHeight : Nat
deriving DecidableEq, Repr

/-- The design-default batch size of chain synchronization. -/
def SYNC_BATCH_SIZE : Nat := 50

/-- The end of the next batch: Math.min(from + SYNC_BATCH_SIZE - 1,
bestHeight) with from = height + 1. -/
def batchEnd (height bestHeight : Nat) : Nat :=
  min (height + 1 + SYNC_BATCH_SIZE - 1) bestHeight

/-- One step of the best-peer selection: replace the candidate whenever a
peer's reported height strictly exceeds the best height so far. -/
def bestPeerStep (acc : Option SyncPeer × Nat) (p : SyncPeer) :
    Option SyncPeer × Nat :=
  if acc.2 < p.chainHeight then (some p, p.chainHeight) else acc

/-- The best-peer selection of syncFromPeers: fold over the connected peers,
starting from no candidate at the local chain height. -/
def findBestPeer (peers : List SyncPeer) (localHeight : Nat) :
    Option SyncPeer × Nat :=
  peers.foldl bestPeerStep (none, localHeight)

/-- The while loop of syncFromPeers: while the local height is below the
selected height, request the next batch starting at height + 1, stop on an
empty reply (the timeout path), otherwise apply the returned blocks
sequentially — each applied block extends the chain by one — and continue.
request is the network oracle; fuel only bounds the recursion and is
irrelevant whenever it is at least bestHeight - height.  Returns the final
height and the (from, to) trace of batch requests issued. -/
def syncLoop (request : Nat → Nat → List Block) (bestHeight : Nat) :
    Nat → Nat → Nat × List (Nat × Nat)
  | height, 0 => (height, [])
  | height, fuel + 1 =>
    if height < bestHeight then
      match request (height + 1) (batchEnd height bestHeight) with
      | [] => (height, [(height + 1, batchEnd height bestHeight)])
      | b :: bs =>
          ((syncLoop request bestHeight (height + (b :: bs).length) fuel).1,
           (height + 1, batchEnd height bestHeight) ::
             (syncLoop request bestHeight (height + (b :: bs).length) fuel).2)
    else (height, [])

/-- syncFromPeers: pick the connected peer with the highest reported chain
height; if none exceeds the local height, return at once, otherwise run the
batch loop against that peer up to its reported height. -/
def syncFromPeers (request : Nat → Nat → List Block) (peers : List SyncPeer)
    (localHeight fuel : Nat) : Nat × List (Nat × Nat) :=
  match findBestPeer peers localHeight with
  | (none, _) => (localHeight, [])
  | (some _, bh) => syncLoop request bh localHeight fuel

/-! ## Networking theorems (claims C8 and C9) -/

/-- Claim C9: a handshake claiming the local identity, or an identity already
registered, closes the connection and registers no peer; consequently the
peer map never contains the local identity and never holds two entries for
the same identity, and every processed handshake preserves this invariant. -/
theorem claim_C9_handshake_no_self_no_dup (selfId : String)
    (peers : List String) (remoteId : String) :
    (remoteId = selfId →
      handleHandshake selfId peers remoteId = (peers, false)) ∧
    (remoteId ∈ peers →
      handleHandshake selfId peers remoteId = (peers, false)) ∧
    (selfId ∉ peers → peers.Nodup →
      selfId ∉ (handleHandshake selfId peers remoteId).1 ∧
      (handleHandshake selfId peers remoteId).1.Nodup) := by
  refine ⟨?_, ?_, ?_⟩
  · intro h
    unfold handleHandshake
    rw [if_pos h]
  · intro h
    unfold handleHandshake
    by_cases hs : remoteId = selfId
    · rw [if_pos hs]
    · rw [if_neg hs, if_pos h]
  · intro hself hnd
    unfold handleHandshake
    by_cases hs : remoteId = selfId
    · rw [if_pos hs]
      exact ⟨hself, hnd⟩
    · rw [if_neg hs]
      by_cases hm : remoteId ∈ peers
      · rw [if_pos hm]
        exact ⟨hself, hnd⟩
      · rw [if_neg hm]
        constructor
        · intro hmem
          rcases List.mem_append.1 hmem with h | h
          · exact hself h
          · exact hs (List.mem_singleton.1 h).symm
        · refine List.Nodup.append hnd (List.nodup_singleton _) ?_
          intro a ha hb
          rw [List.mem_singleton] at hb
          exact hm (hb ▸ ha)

/-- Claim C9 witness: a concrete peer map rejecting the self-connection and
the duplicate and accepting a fresh identity while keeping the invariant. -/
theorem claim_C9_handshake_no_self_no_dup_witness :
    ("a" = "a" → handleHandshake "a" ["b"] "a" = (["b"], false)) ∧
    ("b" ∈ ["b"] → handleHandshake "a" ["b"] "b" = (["b"], false)) ∧
    ("a" ∉ ["b"] → ["b"].Nodup →
      "a" ∉ (handleHandshake "a" ["b"] "c").1 ∧
      (handleHandshake "a" ["b"] "c").1.Nodup) :=
  ⟨(claim_C9_handshake_no_self_no_dup "a" ["b"] "a").1,
   (claim_C9_handshake_no_self_no_dup "a" ["b"] "b").2.1,
   (claim_C9_handshake_no_self_no_dup "a" ["b"] "c").2.2⟩

/-- Helper: invariant of the best-peer fold: the accumulated height only
grows, bounds every visited peer's height, and the final candidate is either
the initial accumulator, untouched, or a visited peer holding the final
height, strictly above the initial height. -/
theorem bestPeerStep_foldl_spec (peers : List SyncPeer) :
    ∀ accP accH,
    accH ≤ (peers.foldl bestPeerStep (accP, accH)).2 ∧
    (∀ q ∈ peers, q.chainHeight ≤ (peers.foldl bestPeerStep (accP, accH)).2) ∧
    (peers.foldl bestPeerStep (accP, accH) = (accP, accH) ∨
      ∃ p ∈ peers, peers.foldl bestPeerStep (accP, accH) =
        (some p, p.chainHeight) ∧ accH < p.chainHeight) := by
  induction peers with
  | nil =>
    intro accP accH
    exact ⟨Nat.le_refl _, by simp, Or.inl rfl⟩
  | cons p ps ih =>
    intro accP accH
    rw [List.foldl_cons]
    by_cases h : accH < p.chainHeight
    · rw [show bestPeerStep (accP, accH) p = (some p, p.chainHeight) from
        if_pos h]
      obtain ⟨ih1, ih2, ih3⟩ := ih (some p) p.chainHeight
      refine ⟨Nat.le_trans (Nat.le_of_lt h) ih1, ?_, ?_⟩
      · intro q hq
        rcases List.mem_cons.1 hq with hq | hq
        · rw [hq]
          exact ih1
        · exact ih2 q hq
      · rcases ih3 with h3 | ⟨p', hp', heq, hlt⟩
        · exact Or.inr ⟨p, List.mem_cons_self p ps, h3, h⟩
        · exact Or.inr ⟨p', List.mem_cons_of_mem p hp', heq, Nat.lt_trans h hlt⟩
    · rw [show bestPeerStep (accP, accH) p = (accP, accH) from if_neg h]
      obtain ⟨ih1, ih2, ih3⟩ := ih accP accH
      refine ⟨ih1, ?_, ?_⟩
      · intro q hq
        rcases List.mem_cons.1 hq with hq | hq
        · rw [hq]
          exact Nat.le_trans (Nat.le_of_not_lt h) ih1
        · exact ih2 q hq
      · rcases ih3 with h3 | ⟨p', hp', heq, hlt⟩
        · exact Or.inl h3
        · exact Or.inr ⟨p', List.mem_cons_of_mem p hp', heq, hlt⟩

/-- Helper: characterization of findBestPeer: a returned candidate is a
connected peer of maximal reported height, strictly above the local height,
and the returned height is its height; no candidate means no peer is ahead
of the local chain. -/
theorem findBestPeer_spec (peers : List SyncPeer) (localHeight : Nat) :
    (∀ p bh, findBestPeer peers localHeight = (some p, bh) →
      p ∈ peers ∧ bh = p.chainHeight ∧ localHeight < p.chainHeight ∧
      ∀ q ∈ peers, q.chainHeight ≤ p.chainHeight) ∧
    (∀ bh, findBestPeer peers localHeight = (none, bh) →
      bh = localHeight ∧ ∀ q ∈ peers, q.chainHeight ≤ localHeight) := by
  obtain ⟨h1, h2, h3⟩ := bestPeerStep_foldl_spec peers none localHeight
  constructor
  · intro p bh heq
    have heqf : peers.foldl bestPeerStep (none, localHeight) = (some p, bh) := heq
    rcases h3 with h3 | ⟨p', hp', heq', hlt⟩
    · rw [heqf] at h3
      exact absurd (congrArg Prod.fst h3) (by simp)
    · rw [heqf] at heq'
      have hps : p' = p := by
        have := congrArg Prod.fst heq'.symm
        simpa using this
      have hbh : bh = p.chainHeight := by
        have := congrArg Prod.snd heq'
        simpa [hps] using this
      subst hps
      refine ⟨hp', hbh, hlt, ?_⟩
      intro q hq
      have := h2 q hq
      rw [heqf] at this
      simpa [hbh] using this
  · intro bh heq
    have heqf : peers.foldl bestPeerStep (none, localHeight) = (none, bh) := heq
    rcases h3 with h3 | ⟨p', hp', heq', hlt⟩
    · rw [heqf] at h3
      have hbh : bh = localHeight := by
        have := congrArg Prod.snd h3
        simpa using this
      refine ⟨hbh, ?_⟩
      intro q hq
      have := h2 q hq
      rw [heqf] at this
      simpa [hbh] using this
    · rw [heqf] at heq'
      exact absurd (congrArg Prod.fst heq') (by simp)

/-- Helper: behaviour of the sync batch loop.  With enough fuel and an
oracle that never returns more blocks than the batch asked for, the final
height never drops or passes the target, the loop ends below the target only
when a batch request returned empty, every issued request asks for at most
SYNC_BATCH_SIZE blocks starting above the heights already reached and ending
at or below the target, and the first request starts at height + 1. -/
theorem syncLoop_spec (request : Nat → Nat → List Block)
    (hreq : ∀ f t, (request f t).length ≤ t + 1 - f) (bestHeight : Nat) :
    ∀ fuel height, bestHeight ≤ height + fuel →
    height ≤ (syncLoop request bestHeight height fuel).1 ∧
    (syncLoop request bestHeight height fuel).1 ≤ max height bestHeight ∧
    ((syncLoop request bestHeight height fuel).1 < bestHeight →
      request ((syncLoop request bestHeight height fuel).1 + 1)
        (batchEnd (syncLoop request bestHeight height fuel).1 bestHeight) = []) ∧
    (∀ ft ∈ (syncLoop request bestHeight height fuel).2,
      ft.1 ≤ ft.2 ∧ ft.2 ≤ bestHeight ∧ ft.2 < ft.1 + SYNC_BATCH_SIZE ∧
      height < ft.1) ∧
    (height < bestHeight →
      ((syncLoop request bestHeight height fuel).2).head? =
        some (height + 1, batchEnd height bestHeight)) ∧
    (bestHeight ≤ height → syncLoop request bestHeight height fuel = (height, [])) := by
  intro fuel
  induction fuel with
  | zero =>
    intro height hfuel
    rw [show syncLoop request bestHeight height 0 = (height, []) from rfl]
    refine ⟨Nat.le_refl _, le_max_left _ _, ?_, by simp, ?_, fun _ => rfl⟩
    · intro h
      exact absurd h (by simp; omega)
    · intro h
      exact absurd h (by omega)
  | succ fuel ih =>
    intro height hfuel
    by_cases hlt : height < bestHeight
    · cases hbatch : request (height + 1) (batchEnd height bestHeight) with
      | nil =>
        have hres : syncLoop request bestHeight height (fuel + 1) =
            (height, [(height + 1, batchEnd height bestHeight)]) := by
          rw [syncLoop, if_pos hlt, hbatch]
        rw [hres]
        refine ⟨Nat.le_refl _, le_max_left _ _, fun _ => hbatch, ?_,
          fun _ => rfl, fun h => absurd h (by omega)⟩
        intro ft hft
        rw [List.mem_singleton] at hft
        rw [hft]
        refine ⟨?_, ?_, ?_, by omega⟩
        · simp only [batchEnd, SYNC_BATCH_SIZE]
          omega
        · simp only [batchEnd]
          omega
        · simp only [batchEnd, SYNC_BATCH_SIZE]
          omega
      | cons b bs =>
        have hres : syncLoop request bestHeight height (fuel + 1) =
            ((syncLoop request bestHeight (height + (b :: bs).length) fuel).1,
             (height + 1, batchEnd height bestHeight) ::
               (syncLoop request bestHeight (height + (b :: bs).length) fuel).2) := by
          rw [syncLoop, if_pos hlt, hbatch]
        have hlen1 : 1 ≤ (b :: bs).length := by simp
        have hlenB : (b :: bs).length ≤ batchEnd height bestHeight + 1 - (height + 1) := by
          rw [← hbatch]
          exact hreq _ _
        have hh2 : height + (b :: bs).length ≤ bestHeight := by
          simp only [batchEnd, SYNC_BATCH_SIZE] at hlenB
          omega
        have hfuel2 : bestHeight ≤ height + (b :: bs).length + fuel := by omega
        obtain ⟨i1, i2, i3, i4, i5, i6⟩ := ih (height + (b :: bs).length) hfuel2
        rw [hres]
        refine ⟨?_, ?_, i3, ?_, fun _ => rfl, fun h => absurd h (by omega)⟩
        · exact Nat.le_trans (by omega) i1
        · have hmax : max (height + (b :: bs).length) bestHeight = bestHeight :=
            max_eq_right hh2
          rw [hmax] at i2
          exact Nat.le_trans i2 (le_max_right _ _)
        · intro ft hft
          rcases List.mem_cons.1 hft with hft | hft
          · rw [hft]
            refine ⟨?_, ?_, ?_, by omega⟩
            · simp only [batchEnd, SYNC_BATCH_SIZE]
              omega
            · simp only [batchEnd]
              omega
            · simp only [batchEnd, SYNC_BATCH_SIZE]
              omega
          · obtain ⟨j1, j2, j3, j4⟩ := i4 ft hft
            exact ⟨j1, j2, j3, by omega⟩
    · have hres : syncLoop request bestHeight height (fuel + 1) = (height, []) := by
        rw [syncLoop, if_neg hlt]
      rw [hres]
      refine ⟨Nat.le_refl _, le_max_left _ _, fun h => absurd h hlt, by simp,
        fun h => absurd h hlt, fun _ => rfl⟩

/-- Claim C8: block synchronization selects the connected peer with the
highest reported chain height (doing nothing when no peer is ahead of the
local chain), then repeatedly requests batches of at most SYNC_BATCH_SIZE
blocks starting at the next missing height, applies the returned blocks
sequentially, and stops exactly when the local height reaches the selected
peer's reported height or a batch request returns empty. -/
theorem claim_C8_sync_from_peers (request : Nat → Nat → List Block)
    (peers : List SyncPeer) (localHeight fuel : Nat)
    (hreq : ∀ f t, (request f t).length ≤ t + 1 - f) :
    ((∀ q ∈ peers, q.chainHeight ≤ localHeight) →
      syncFromPeers request peers localHeight fuel = (localHeight, [])) ∧
    (∀ p bh, findBestPeer peers localHeight = (some p, bh) →
      p ∈ peers ∧ bh = p.chainHeight ∧ localHeight < p.chainHeight ∧
      (∀ q ∈ peers, q.chainHeight ≤ p.chainHeight) ∧
      syncFromPeers request peers localHeight fuel =
        syncLoop request p.chainHeight localHeight fuel ∧
      (p.chainHeight ≤ localHeight + fuel →
        localHeight ≤ (syncLoop request p.chainHeight localHeight fuel).1 ∧
        (syncLoop request p.chainHeight localHeight fuel).1 ≤ p.chainHeight ∧
        ((syncLoop request p.chainHeight localHeight fuel).1 = p.chainHeight ∨
          request ((syncLoop request p.chainHeight localHeight fuel).1 + 1)
            (batchEnd (syncLoop request p.chainHeight localHeight fuel).1
              p.chainHeight) = []) ∧
        (∀ ft ∈ (syncLoop request p.chainHeight localHeight fuel).2,
          ft.1 ≤ ft.2 ∧ ft.2 ≤ p.chainHeight ∧
          ft.2 < ft.1 + SYNC_BATCH_SIZE ∧ localHeight < ft.1) ∧
        ((syncLoop request p.chainHeight localHeight fuel).2).head? =
          some (localHeight + 1, batchEnd localHeight p.chainHeight))) := by
  constructor
  · intro hall
    obtain ⟨hsome, -⟩ := findBestPeer_spec peers localHeight
    unfold syncFromPeers
    cases hfb : findBestPeer peers localHeight with
    | mk o bh =>
      cases o with
      | none => rfl
      | some p =>
        obtain ⟨hp, -, hlt, -⟩ := hsome p bh hfb
        exact absurd hlt (Nat.not_lt.2 (hall p hp))
  · intro p bh hfb
    obtain ⟨hsome, -⟩ := findBestPeer_spec peers localHeight
    obtain ⟨hp, hbh, hlt, hmax⟩ := hsome p bh hfb
    have heq : syncFromPeers request peers localHeight fuel =
        syncLoop request p.chainHeight localHeight fuel := by
      unfold syncFromPeers
      rw [hfb, hbh]
    refine ⟨hp, hbh, hlt, hmax, heq, ?_⟩
    intro hfuel
    obtain ⟨s1, s2, s3, s4, s5, -⟩ :=
      syncLoop_spec request hreq p.chainHeight fuel localHeight hfuel
    refine ⟨s1, ?_, ?_, s4, s5 hlt⟩
    · rw [max_eq_right (Nat.le_of_lt hlt)] at s2
      exact s2
    · by_cases hfin : (syncLoop request p.chainHeight localHeight fuel).1 =
          p.chainHeight
      · exact Or.inl hfin
      · refine Or.inr (s3 ?_)
        have := s2
        rw [max_eq_right (Nat.le_of_lt hlt)] at this
        omega

/-- Claim C8 witness: two connected peers at heights 3 and 5, a local chain
at height 0 and an oracle serving every requested range in full instantiate
the synchronization characterization. -/
theorem claim_C8_sync_from_peers_witness :
    (let request : Nat → Nat → List Block := fun f t =>
      (List.range' f (t + 1 - f)).map fun h =>
        { height := h, hash := "h", prevHash := "p", stateRoot := "s", transactions := [] }
     let peers : List SyncPeer :=
      [{ nodeId := "b", chainHeight := 3 }, { nodeId := "c", chainHeight := 5 }]
     ((∀ q ∈ peers, q.chainHeight ≤ 0) →
       syncFromPeers request peers 0 10 = (0, [])) ∧
     (∀ p bh, findBestPeer peers 0 = (some p, bh) →
       p ∈ peers ∧ bh = p.chainHeight ∧ 0 < p.chainHeight ∧
       (∀ q ∈ peers, q.chainHeight ≤ p.chainHeight) ∧
       syncFromPeers request peers 0 10 =
         syncLoop request p.chainHeight 0 10 ∧
       (p.chainHeight ≤ 0 + 10 →
         0 ≤ (syncLoop request p.chainHeight 0 10).1 ∧
         (syncLoop request p.chainHeight 0 10).1 ≤ p.chainHeight ∧
         ((syncLoop request p.chainHeight 0 10).1 = p.chainHeight ∨
           request ((syncLoop request p.chainHeight 0 10).1 + 1)
             (batchEnd (syncLoop request p.chainHeight 0 10).1
               p.chainHeight) = []) ∧
         (∀ ft ∈ (syncLoop request p.chainHeight 0 10).2,
           ft.1 ≤ ft.2 ∧ ft.2 ≤ p.chainHeight ∧
           ft.2 < ft.1 + SYNC_BATCH_SIZE ∧ 0 < ft.1) ∧
         ((syncLoop request p.chainHeight 0 10).2).head? =
           some (0 + 1, batchEnd 0 p.chainHeight)))) :=
  claim_C8_sync_from_peers _ _ 0 10 (by intro f t; simp)

/-! ## Identity and keystore (docs/architecture/identity.md) -/

/-- The sixteen lowercase hex digits. -/
def hexDigitChars : List Char :=
  "0123456789abcdef".data

/-- The hex digit of a value below sixteen. -/
def hexDigit (n : Nat) : Char :=
  hexDigitChars.getD n '0'

/-- One byte as two hex characters, high nibble first. -/
def byteToHex (b : Nat) : List Char :=
  [hexDigit (b / 16), hexDigit (b % 16)]

/-- toHex: a byte array as a lowercase hex string. -/
def toHex (bs : List Nat) : String :=
  String.mk (bs.flatMap byteToHex)

/-- The value of a hex digit character. -/
def hexVal (c : Char) : Nat :=
  hexDigitChars.indexOf c

/-- fromHex at the character level: consume two characters per byte. -/
def fromHexChars : List Char → List Nat
  | h :: l :: rest => (hexVal h * 16 + hexVal l) :: fromHexChars rest
  | _ => []

/-- fromHex: a hex string back to its byte array. -/
def fromHex (s : String) : List Nat :=
  fromHexChars s.data

/-- The XOR loop shared by encryptKeystore and decryptKeystore: byte i of
the data against byte i mod keyLength of the derived key. -/
def xorWithKey (data key : List Nat) : List Nat :=
  (List.range data.length).map fun i =>
    data.getD i 0 ^^^ key.getD (i % key.length) 0

/-- The 10000-fold rehashing loop of deriveKey. -/
def iterateHash (sha256 : List Nat → List Nat) : Nat → List Nat → List Nat
  | 0, k => k
  | n + 1, k => iterateHash sha256 n (sha256 k)

/-- deriveKey(password, salt): hash the password concatenated with the hex
salt, then rehash 10000 times.  sha256 is an abstract parameter; the
encoding of the password text is its character codes. -/
def deriveKey (sha256 : List Nat → List Nat) (password : String)
    (salt : List Nat) : List Nat :=
  iterateHash sha256 10000 (sha256 ((password ++ toHex salt).data.map Char.toNat))

/-- An Ed25519 keypair, both keys hex-encoded. -/
structure KeyPair where
  publicKey : String
  privateKey : String
deriving DecidableEq, Repr

/-- The keystore.json contents. -/
structure KeystoreFile where
  version : Nat
  publicKey : String
  encryptedPrivateKey : String
  salt : String
  orgId : String
  name : String
deriving DecidableEq, Repr

/-- encryptKeystore: XOR the private key bytes with the password-derived
key and store the result with the salt, both hex-encoded.  The random salt
is passed in explicitly (crypto.getRandomValues is an effect). -/
def encryptKeystore (sha256 : List Nat → List Nat) (kp : KeyPair)
    (password orgId name : String) (salt : List Nat) : KeystoreFile :=
  { version := 1
    publicKey := kp.publicKey
    encryptedPrivateKey :=
      toHex (xorWithKey (fromHex kp.privateKey) (deriveKey sha256 password salt))
    salt := toHex salt
    orgId := orgId
    name := name }

/-- decryptKeystore: re-derive the key from the password and the stored
salt and XOR the encrypted bytes back. -/
def decryptKeystore (sha256 : List Nat → List Nat) (ks : KeystoreFile)
    (password : String) : KeyPair :=
  { publicKey := ks.publicKey
    privateKey :=
      toHex (xorWithKey (fromHex ks.encryptedPrivateKey)
        (deriveKey sha256 password (fromHex ks.salt))) }

/-! ## Keystore round-trip (claim C10) -/

/-- Helper: reading back a hex digit of a value below sixteen. -/
theorem hexVal_hexDigit : ∀ n, n < 16 → hexVal (hexDigit n) = n := by decide

/-- Helper: fromHex consumes one encoded byte at a time. -/
theorem fromHexChars_byteToHex (b : Nat) (rest : List Char) (hb : b < 256) :
    fromHexChars (byteToHex b ++ rest) = b :: fromHexChars rest := by
  show fromHexChars (hexDigit (b / 16) :: hexDigit (b % 16) :: rest) = _
  rw [fromHexChars]
  rw [hexVal_hexDigit (b / 16) (by omega), hexVal_hexDigit (b % 16) (by omega)]
  congr 1
  omega

/-- Helper: hex decoding inverts hex encoding on byte lists. -/
theorem fromHexChars_bind (bs : List Nat) (h : ∀ b ∈ bs, b < 256) :
    fromHexChars (bs.flatMap byteToHex) = bs := by
  induction bs with
  | nil => rfl
  | cons b tl ih =>
    rw [List.flatMap_cons, fromHexChars_byteToHex b _ (h b (List.mem_cons_self b tl)),
      ih fun x hx => h x (List.mem_cons_of_mem b hx)]

/-- Helper: fromHex inverts toHex on byte lists. -/
theorem fromHex_toHex (bs : List Nat) (h : ∀ b ∈ bs, b < 256) :
    fromHex (toHex bs) = bs :=
  fromHexChars_bind bs h

/-- Helper: an out-of-range default or an in-range byte stays below 256. -/
theorem getD_lt_256 (l : List Nat) (h : ∀ b ∈ l, b < 256) (i : Nat) :
    l.getD i 0 < 256 := by
  by_cases hi : i < l.length
  · rw [List.getD_eq_getElem l 0 hi]
    exact h _ (List.getElem_mem hi)
  · rw [List.getD_eq_default l 0 (by omega)]
    omega

/-- Helper: the XOR loop keeps bytes below 256. -/
theorem xorWithKey_bytes_lt (d k : List Nat) (hd : ∀ b ∈ d, b < 256)
    (hk : ∀ b ∈ k, b < 256) : ∀ b ∈ xorWithKey d k, b < 256 := by
  intro b hb
  unfold xorWithKey at hb
  rw [List.mem_map] at hb
  obtain ⟨i, hi, rfl⟩ := hb
  have h1 : d.getD i 0 < 256 := getD_lt_256 d hd i
  have h2 : k.getD (i % k.length) 0 < 256 := getD_lt_256 k hk _
  have h256 : (256 : Nat) = 2 ^ 8 := by norm_num
  rw [h256] at h1 h2 ⊢
  exact Nat.xor_lt_two_pow h1 h2

/-- Helper: one entry of the XOR loop. -/
theorem xorWithKey_getD (d k : List Nat) (i : Nat) (hi : i < d.length) :
    (xorWithKey d k).getD i 0 =
      d.getD i 0 ^^^ k.getD (i % k.length) 0 := by
  unfold xorWithKey
  rw [List.getD_eq_getElem _ 0 (by simpa using hi)]
  simp

/-- Helper: XOR with the same key twice is the identity, entry by entry. -/
theorem xorWithKey_involution (d k : List Nat) :
    xorWithKey (xorWithKey d k) k = d := by
  have hlen : (xorWithKey d k).length = d.length := by simp [xorWithKey]
  apply List.ext_getElem
  · simp [xorWithKey]
  · intro i h1 h2
    rw [show (xorWithKey (xorWithKey d k) k)[i] =
        (xorWithKey (xorWithKey d k) k).getD i 0 from
      (List.getD_eq_getElem _ 0 h1).symm]
    rw [xorWithKey_getD _ k i (by rw [hlen]; exact h2)]
    rw [xorWithKey_getD d k i h2]
    rw [Nat.xor_assoc, Nat.xor_self, Nat.xor_zero]
    exact List.getD_eq_getElem d 0 h2

/-- Helper: rehashing keeps bytes below 256 whenever the hash does. -/
theorem iterateHash_bytes_lt (sha256 : List Nat → List Nat)
    (hsha : ∀ x, ∀ b ∈ sha256 x, b < 256) :
    ∀ n k, (∀ b ∈ k, b < 256) → ∀ b ∈ iterateHash sha256 n k, b < 256 := by
  intro n
  induction n with
  | zero => intro k hk; exact hk
  | succ n ih => intro k _; exact ih (sha256 k) (hsha k)

/-- Helper: the derived key is a byte list whenever the hash yields bytes. -/
theorem deriveKey_bytes_lt (sha256 : List Nat → List Nat)
    (hsha : ∀ x, ∀ b ∈ sha256 x, b < 256) (password : String)
    (salt : List Nat) :
    ∀ b ∈ deriveKey sha256 password salt, b < 256 :=
  iterateHash_bytes_lt sha256 hsha 10000 _ (hsha _)

/-- Claim C10: decrypting an encrypted keystore with the same password
restores the original keypair: the stored salt re-derives the same key and
the XOR encryption is its own inverse. -/
theorem claim_C10_keystore_round_trip (sha256 : List Nat → List Nat)
    (kp : KeyPair) (password orgId name : String)
    (salt privBytes : List Nat)
    (hsha : ∀ x, ∀ b ∈ sha256 x, b < 256)
    (hpriv : kp.privateKey = toHex privBytes)
    (hprivB : ∀ b ∈ privBytes, b < 256)
    (hsaltB : ∀ b ∈ salt, b < 256) :
    decryptKeystore sha256 (encryptKeystore sha256 kp password orgId name salt)
        password =
      { publicKey := kp.publicKey, privateKey := kp.privateKey } := by
  have hsalt2 : fromHex (toHex salt) = salt := fromHex_toHex salt hsaltB
  have hder : ∀ b ∈ deriveKey sha256 password salt, b < 256 :=
    deriveKey_bytes_lt sha256 hsha password salt
  have hpriv2 : fromHex kp.privateKey = privBytes := by
    rw [hpriv]
    exact fromHex_toHex privBytes hprivB
  have hencB : ∀ b ∈ xorWithKey privBytes (deriveKey sha256 password salt),
      b < 256 :=
    xorWithKey_bytes_lt privBytes _ hprivB hder
  show ({ publicKey := kp.publicKey,
          privateKey := toHex (xorWithKey
            (fromHex (toHex (xorWithKey (fromHex kp.privateKey)
              (deriveKey sha256 password salt))))
            (deriveKey sha256 password (fromHex (toHex salt)))) } : KeyPair) = _
  rw [hsalt2, hpriv2, fromHex_toHex _ hencB, xorWithKey_involution, ← hpriv]

/-- Claim C10 witness: a concrete keypair, password and salt, with a
constant 32-byte stand-in for sha256, round-trips exactly. -/
theorem claim_C10_keystore_round_trip_witness :
    decryptKeystore (fun _ => List.replicate 32 7)
        (encryptKeystore (fun _ => List.replicate 32 7)
          { publicKey := "aa", privateKey := toHex [1, 2] } "pw" "org" "n1" [170])
        "pw" =
      { publicKey := "aa", privateKey := toHex [1, 2] } :=
  claim_C10_keystore_round_trip (fun _ => List.replicate 32 7)
    { publicKey := "aa", privateKey := toHex [1, 2] } "pw" "org" "n1" [170] [1, 2]
    (fun _ b hb => by rw [List.eq_of_mem_replicate hb]; omega)
    rfl (by decide) (by decide)
